import Mathlib

/-!
Verification development for the kid_readout signal-processing core.

The definitions below are a shallow embedding of:
  * `kid_readout/roach/demodulator.py` (Demodulator, packet_phase,
    tone_offset_frequency, get_foffs_period),
  * `kid_readout/roach/heterodyne.py` (RoachHeterodyne.demodulate_data offset),
  * `kid_readout/analysis/timeseries/iqnoise.py` (calculate_pca_noise,
    full_spectral_helper and the averaging done in pca_noise).

Python floats are modelled as exact real numbers (`ℝ`), except in
`get_foffs_period` where the inputs are rationals (`ℚ`) so that concrete
evaluations are decidable; machine integers are `ℕ`/`ℤ` with the Python 2
floor-division semantics written out explicitly.
-/

open scoped BigOperators

noncomputable section

/-- `np.sinc`: `sin (π x) / (π x)`, with the removable singularity at `0` set to `1`. -/
def sinc (x : ℝ) : ℝ := if x = 0 then 1 else Real.sin (Real.pi * x) / (Real.pi * x)

/-- Helper for `interp`: walk the remaining sample points.  `p0` is the most recent
point whose abscissa is `≤ x` (strictly, the point that failed the `x < x1` test);
when the list is exhausted the last ordinate is returned (right clamp of `np.interp`). -/
def interpPts (x : ℝ) : ℝ × ℝ → List (ℝ × ℝ) → ℝ
  | p0, [] => p0.2
  | p0, p1 :: rest =>
      if x < p1.1 then p0.2 + (p1.2 - p0.2) * (x - p0.1) / (p1.1 - p0.1)
      else interpPts x p1 rest

/-- `np.interp x xp fp` for an increasing abscissa list, the two lists zipped into `pts`:
linear interpolation between neighbouring points, clamped to the first (resp. last)
ordinate for `x` below (resp. above) the tabulated span.  `np.interp` never raises
for out-of-range `x`. -/
def interp (x : ℝ) (pts : List (ℝ × ℝ)) : ℝ :=
  match pts with
  | [] => 0
  | p0 :: rest => if x ≤ p0.1 then p0.2 else interpPts x p0 rest

/-- The constructor arguments of `Demodulator.__init__`.  The window-response table
(`_window_frequency`, `_window_response`) is derived from these fields by
`pfb_table` below, exactly as `__init__` derives it from
`compute_window_frequency_response(compute_pfb_window())`. -/
structure Demodulator where
  nfft : ℕ
  num_taps : ℕ
  window_function : ℕ → ℕ → ℝ
  interpolation_factor : ℕ
  hardware_delay_samples : ℤ

namespace Demodulator

/-- `Demodulator.compute_pfb_window`: the window function evaluated over
`nfft * num_taps` samples, multiplied by `np.sinc(arange(nfft*num_taps)/nfft - num_taps/2)`. -/
def compute_pfb_window (d : Demodulator) : ℕ → ℝ :=
  fun j => d.window_function (d.nfft * d.num_taps) j *
    sinc ((j : ℝ) / (d.nfft : ℝ) - (d.num_taps : ℝ) / 2)

/-- Length of the interpolated response table:
`window.shape[0] * interpolation_factor` in `compute_window_frequency_response`. -/
def pfb_fft_length (d : Demodulator) : ℕ := d.nfft * d.num_taps * d.interpolation_factor

/-- `np.fft.fft(window, window.shape[0]*interpolation_factor)` at output index `k`:
the window is zero-padded to `pfb_fft_length d`, so the sum runs over the window samples. -/
def pfb_window_fft (d : Demodulator) (k : ℕ) : ℂ :=
  ∑ j in Finset.range (d.nfft * d.num_taps),
    (compute_pfb_window d j : ℂ) *
      Complex.exp (-(2 * (Real.pi : ℂ) * Complex.I) * k * j / (pfb_fft_length d : ℂ))

/-- `np.abs(np.fft.fftshift(...))` at index `i`: `fftshift` rolls by `N // 2`,
so entry `i` of the shifted array is entry `(i + N - N/2) % N` of the FFT. -/
def pfb_response_raw (d : Demodulator) (i : ℕ) : ℝ :=
  Complex.abs (pfb_window_fft d
    ((i + (pfb_fft_length d - pfb_fft_length d / 2)) % pfb_fft_length d))

/-- `response.max()` over the table (the responses are nonnegative, so folding
`max` from `0` agrees with `np.max` on a nonempty table). -/
def pfb_response_max (d : Demodulator) : ℝ :=
  ((List.range (pfb_fft_length d)).map (pfb_response_raw d)).foldr max 0

/-- The normalized response `response / response.max()` stored in `_window_response`. -/
def pfb_response (d : Demodulator) (i : ℕ) : ℝ :=
  pfb_response_raw d i / pfb_response_max d

/-- `_window_frequency`: `(np.arange(-len/2, len/2) / interpolation_factor) / 2` at index `i`. -/
def pfb_norm_freq (d : Demodulator) (i : ℕ) : ℝ :=
  ((i : ℝ) - (pfb_fft_length d : ℝ) / 2) / (d.interpolation_factor : ℝ) / 2

/-- The tabulated `(frequency, response)` pairs used by `compute_pfb_response`. -/
def pfb_table (d : Demodulator) : List (ℝ × ℝ) :=
  (List.range (pfb_fft_length d)).map (fun i => (pfb_norm_freq d i, pfb_response d i))

/-- `Demodulator.compute_pfb_response`:
`1 / np.interp(normalized_frequency, self._window_frequency, self._window_response)`. -/
def compute_pfb_response (d : Demodulator) (normalized_frequency : ℝ) : ℝ :=
  1 / interp normalized_frequency (pfb_table d)

end Demodulator

/-- `tone_offset_frequency(tone_bin, tone_num_samples, fft_bin, nfft)`:
`nfft * (k / float(ns)) - m`. -/
def tone_offset_frequency (tone_bin : ℤ) (tone_num_samples : ℕ) (fft_bin : ℤ) (nfft : ℕ) : ℝ :=
  (nfft : ℝ) * ((tone_bin : ℝ) / (tone_num_samples : ℝ)) - (fft_bin : ℝ)

/-- `packet_phase(seq_no, foffs, nchan, nfft, ns)` from `demodulator.py`.
The file has no `from __future__ import division`, so `/` on Python 2 ints is floor
division, written here with `ℕ` division; `int(np.log2(chan_counts))` is the floor
base-2 logarithm `Nat.log2`.  `foffs` is the (per-channel) offset frequency. -/
def packet_phase (seq_no : ℕ) (foffs : ℝ) (nchan nfft ns : ℕ) : ℂ :=
  let packet_bins : ℕ := 1024
  let packet_counts : ℕ := nfft * packet_bins
  let chan_counts : ℕ := packet_counts / nchan
  let shift : ℕ := Nat.log2 chan_counts - 1
  let modn0 : ℕ := ns / chan_counts
  let modn : ℕ := if modn0 = 0 then 1 else modn0
  let multy : ℕ := ns / nfft
  let s : ℕ := (seq_no >>> shift) % modn
  Complex.exp (-Complex.I * 2 * (Real.pi : ℂ) * (s : ℂ) * (foffs : ℂ) * (multy : ℂ) / (modn : ℂ))

namespace Demodulator

/-- `Demodulator.demodulate(data, tone_bin, tone_num_samples, tone_phase, fft_bin, nchan, seq_nos)`,
per time sample.  `seq_nos = some s` models passing an ndarray of sequence numbers
(the code tests `type(seq_nos) is np.ndarray` and uses only `seq_nos[0]`);
`none` models the default `seq_nos=None`. -/
def demodulate (d : Demodulator) (data : ℕ → ℂ) (tone_bin : ℤ) (tone_num_samples : ℕ)
    (tone_phase : ℝ) (fft_bin : ℤ) (nchan : ℕ) (seq_nos : Option (ℕ → ℕ)) : ℕ → ℂ :=
  let phi0 := tone_phase
  let foffs := tone_offset_frequency tone_bin tone_num_samples fft_bin d.nfft
  let wc := compute_pfb_response d foffs
  let demod : ℕ → ℂ := fun t =>
    (wc : ℂ) * Complex.exp (-Complex.I * (2 * (Real.pi : ℂ) * (foffs : ℂ) * (t : ℂ) + (phi0 : ℂ)))
      * data t
  let demod2 : ℕ → ℂ :=
    match seq_nos with
    | some s => fun t => demod t * packet_phase (s 0) foffs nchan d.nfft tone_num_samples
    | none => demod
  if d.hardware_delay_samples ≠ 0 then
    fun t => demod2 t *
      Complex.exp (2 * (Real.pi : ℂ) * Complex.I * (d.hardware_delay_samples : ℂ) * (tone_bin : ℂ)
        / (tone_num_samples : ℂ))
  else demod2

end Demodulator

/-- The offset frequency computed inline by `RoachHeterodyne.demodulate_data`
(`heterodyne.py` line 278): `foffs = (k * nfft - m * ns) / float(ns)`. -/
def heterodyne_foffs (tone_bin : ℤ) (nfft : ℕ) (fft_bin : ℤ) (tone_num_samples : ℕ) : ℝ :=
  ((tone_bin * (nfft : ℤ) - fft_bin * (tone_num_samples : ℤ) : ℤ) : ℝ) / (tone_num_samples : ℝ)

end

/-- Largest element of a rational list, `none` on the empty list
(`np.max` raises `ValueError` on an empty array, modelled as `none`). -/
def listMax : List ℚ → Option ℚ
  | [] => none
  | a :: rest =>
      match listMax rest with
      | none => some a
      | some m => some (max a m)

/-- Python `int()`: truncation toward zero. -/
def intTrunc (q : ℚ) : ℤ := if 0 ≤ q then ⌊q⌋ else ⌈q⌉

/-- `get_foffs_period(foffs)`: `int(np.max(1 / foffs[foffs != 0]))`.
Offsets are modelled as exact rationals; `none` models the `ValueError` that
`np.max` raises when the mask removes every entry. -/
def get_foffs_period (foffs : List ℚ) : Option ℤ :=
  match listMax ((foffs.filter (fun f => decide (f ≠ 0))).map (fun f => 1 / f)) with
  | none => none
  | some m => some (intTrunc m)

/-- The number of samples kept by `Demodulator.demodulate_stream` (lines 50-51):
`data = data[: nt * (data.shape[0] // nt), :]` when `data.shape[0] % nt` is nonzero,
the whole buffer otherwise. -/
def truncated_length (T nt : ℕ) : ℕ :=
  if T % nt ≠ 0 then nt * (T / nt) else T

/-- The period as the spec's words describe it for C5: the smallest *positive*
reciprocal-offset period across channels (`none` when no positive period exists).
This definition follows the claim's wording, to be compared with `get_foffs_period`. -/
def claimC5_period (foffs : List ℚ) : Option ℚ :=
  ((foffs.map (fun f => 1 / f)).filter (fun p => decide (0 < p))).foldr
    (fun a m => match m with | none => some a | some b => some (min a b)) none

noncomputable section

/-!  ### PCA noise decomposer (`iqnoise.calculate_pca_noise`)  -/

/-- `np.linalg.eigh` for the real symmetric matrix `!![a, b; b, c]` built in the loop
of `calculate_pca_noise`: eigenvalues in ascending order, eigenvector `j` in
column `j`.  For `b ≠ 0`, `(b, λ - a)` is an eigenvector for eigenvalue `λ`,
normalized to unit length. -/
def eigh2 (a b c : ℝ) : (ℝ × ℝ) × Matrix (Fin 2) (Fin 2) ℝ :=
  if b = 0 then
    if a ≤ c then ((a, c), !![1, 0; 0, 1])
    else ((c, a), !![0, 1; 1, 0])
  else
    let D := Real.sqrt ((a - c) ^ 2 + 4 * b ^ 2)
    let l0 := (a + c - D) / 2
    let l1 := (a + c + D) / 2
    let n0 := Real.sqrt (b ^ 2 + (l0 - a) ^ 2)
    let n1 := Real.sqrt (b ^ 2 + (l1 - a) ^ 2)
    ((l0, l1), !![b / n0, b / n1; (l0 - a) / n0, (l1 - a) / n1])

/-- `np.linalg.inv` for a 2×2 matrix (adjugate over determinant). -/
def inv2 {α : Type} [Field α] (v : Matrix (Fin 2) (Fin 2) α) : Matrix (Fin 2) (Fin 2) α :=
  (1 / (v 0 0 * v 1 1 - v 0 1 * v 1 0)) • !![v 1 1, -(v 0 1); -(v 1 0), v 0 0]

/-- Entrywise cast of a real matrix into the complex matrix numpy stores it as
(the `evects` array has `dtype='complex'`). -/
def matC (v : Matrix (Fin 2) (Fin 2) ℝ) : Matrix (Fin 2) (Fin 2) ℂ :=
  v.map (fun x => (x : ℂ))

/-- The full 2×2 matrix built in the second loop of `calculate_pca_noise` (lines 133-134):
`[[pii[k], piq[k]], [conj(piq[k]), pqq[k]]]`, with the supplied complex cross density. -/
def pcaMatrixFull (pii pqq : ℕ → ℝ) (piq : ℕ → ℂ) (k : ℕ) : Matrix (Fin 2) (Fin 2) ℂ :=
  !![(pii k : ℂ), piq k; (starRingEnd ℂ) (piq k), (pqq k : ℂ)]

/-- `np.mod x y` for reals (`y > 0`): `x - y * ⌊x / y⌋`. -/
def fmod (x y : ℝ) : ℝ := x - y * (⌊x / y⌋ : ℝ)

/-- `np.arctan2 y x` as the argument of the complex number `x + y i`. -/
def arctan2 (y x : ℝ) : ℝ := Complex.arg (Complex.mk x y)

/-- The tuple `(S, evals, evects, angles)` returned by `calculate_pca_noise`,
with per-bin arrays modelled as functions of the bin index. -/
structure PcaResult where
  S : ℕ → ℝ × ℝ
  evals : ℕ → ℝ × ℝ
  evects : ℕ → Matrix (Fin 2) (Fin 2) ℝ
  angles : ℕ → ℝ × ℝ

/-- `calculate_pca_noise(pii, pqq, piq)` with `nf = pii.shape[0]` bins; the two loops
run over `k in range(nf)` and fill the arrays pointwise, so each array is modelled as
the function of `k` computed by one loop iteration (entries with `k ≥ nf` do not
exist in the numpy arrays).  The eigendecomposition loop builds its matrix from
`np.real(piq[k])`; the rotated-power loop builds `pcaMatrixFull` from the full
complex `piq[k]` and conjugates it with the *bin-0* eigenvector matrix.  Each `S`
entry is assigned into a float array, which keeps the real part of the complex
matrix product entry. -/
def calculate_pca_noise (nf : ℕ) (pii pqq : ℕ → ℝ) (piq : ℕ → ℂ) : PcaResult :=
  let e : ℕ → (ℝ × ℝ) × Matrix (Fin 2) (Fin 2) ℝ :=
    fun k => eigh2 (pii k) ((piq k).re) (pqq k)
  let v0 : Matrix (Fin 2) (Fin 2) ℝ := (e 0).2
  let invv : Matrix (Fin 2) (Fin 2) ℂ := inv2 (matC v0)
  { S := fun k =>
      (((invv * pcaMatrixFull pii pqq piq k * matC v0) 0 0).re,
       ((invv * pcaMatrixFull pii pqq piq k * matC v0) 1 1).re)
    evals := fun k => (e k).1
    evects := fun k => (e k).2
    angles := fun k =>
      (fmod (arctan2 ((e k).2 0 0) ((e k).2 1 0)) Real.pi,
       fmod (arctan2 ((e k).2 0 1) ((e k).2 1 1)) Real.pi) }

/-!  ### Spectral estimator (`iqnoise.full_spectral_helper` and the averaging in `pca_noise`)

The two real input signals are modelled as a function `x : ℕ → ℝ` together with a
length `L`; the configuration carries `NFFT`, `noverlap`, `pad_to`, the window
values, the detrend callable, `Fs`, `scale_by_freq` and the sides selection
(`onesided = true` is the default for real data).  -/

namespace FSH

/-- The signal after the `np.resize` zero-padding step: when `L < NFFT` the code
pads `x` with zeros up to `NFFT` (resize then `x[n:] = 0`), so samples past `L`
read as `0`; the effective length becomes `max L NFFT`. -/
def resized (L : ℕ) (x : ℕ → ℝ) : ℕ → ℝ := fun j => if j < L then x j else 0

/-- Effective signal length after the padding step. -/
def effLen (L NFFT : ℕ) : ℕ := max L NFFT

/-- Segment stride: `step = NFFT - noverlap`. -/
def step (NFFT noverlap : ℕ) : ℕ := NFFT - noverlap

/-- Number of segments: `len(np.arange(0, len(x) - NFFT + 1, step))`
for a positive `step`, i.e. `(effLen - NFFT) / step + 1`. -/
def numSegs (L NFFT noverlap : ℕ) : ℕ :=
  (effLen L NFFT - NFFT) / step NFFT noverlap + 1

/-- Segment `i` after windowing and detrending:
`thisX = windowVals * detrend(x[ind[i] : ind[i] + NFFT])`. -/
def processed (L NFFT noverlap : ℕ) (w : ℕ → ℝ) (detrend : (ℕ → ℝ) → ℕ → ℝ)
    (x : ℕ → ℝ) (i : ℕ) : ℕ → ℝ :=
  fun j => w j * detrend (fun j' => resized L x (i * step NFFT noverlap + j')) j

/-- `np.fft.fft(thisX, n=pad_to)` at output index `k`: the input of length `NFFT`
is zero-padded (or truncated) to `pad_to`, so the sum runs over
`j < min NFFT pad_to`. -/
def segFFT (L NFFT noverlap pad_to : ℕ) (w : ℕ → ℝ) (detrend : (ℕ → ℝ) → ℕ → ℝ)
    (x : ℕ → ℝ) (i k : ℕ) : ℂ :=
  ∑ j in Finset.range (min NFFT pad_to),
    (processed L NFFT noverlap w detrend x i j : ℂ) *
      Complex.exp (-(2 * (Real.pi : ℂ) * Complex.I) * k * j / (pad_to : ℂ))

/-- `(np.abs(windowVals) ** 2).sum()`. -/
def winNorm (NFFT : ℕ) (w : ℕ → ℝ) : ℝ := ∑ j in Finset.range NFFT, |w j| ^ 2

/-- `numFreqs`: `pad_to // 2 + 1` for one-sided output, `pad_to` for two-sided. -/
def numFreqs (pad_to : ℕ) (onesided : Bool) : ℕ :=
  if onesided then pad_to / 2 + 1 else pad_to

/-- The per-frequency scaling applied by `P[1:-1] *= scaling_factor`:
`2` on the interior bins of a one-sided spectrum, `1` elsewhere
(for two-sided output `scaling_factor` is `1`). -/
def sfac (pad_to : ℕ) (onesided : Bool) (k : ℕ) : ℝ :=
  if 1 ≤ k ∧ k + 1 < numFreqs pad_to onesided then (if onesided then 2 else 1) else 1

/-- `Fs` division selected by `scale_by_freq`. -/
def fsDiv (Fs : ℝ) (scale_by_freq : Bool) : ℝ := if scale_by_freq then Fs else 1

/-- The frequency reordering applied to two-sided output
(`np.concatenate((P[numFreqs//2:], P[:numFreqs//2]), 0)`); identity for one-sided. -/
def shiftIdx (pad_to : ℕ) (onesided : Bool) (k : ℕ) : ℕ :=
  if onesided then k
  else if k < pad_to - pad_to / 2 then k + pad_to / 2 else k - (pad_to - pad_to / 2)

/-- Unaveraged auto density of `x`: segment column `i` of `Pxx` at (pre-shift)
frequency `k`.  `np.conjugate(fx) * fx` is assigned into a float (`np.float_`)
array, which keeps the real part. -/
def Pxx (L NFFT noverlap pad_to : ℕ) (w : ℕ → ℝ) (detrend : (ℕ → ℝ) → ℕ → ℝ)
    (Fs : ℝ) (scale_by_freq onesided : Bool) (x : ℕ → ℝ) (k i : ℕ) : ℝ :=
  ((starRingEnd ℂ) (segFFT L NFFT noverlap pad_to w detrend x i k) *
      segFFT L NFFT noverlap pad_to w detrend x i k).re
    / winNorm NFFT w * sfac pad_to onesided k / fsDiv Fs scale_by_freq

/-- Unaveraged cross density: segment column `i` of `Pxy` at (pre-shift)
frequency `k`: `np.conjugate(fx) * fy`, with the same scalings. -/
def Pxy (L NFFT noverlap pad_to : ℕ) (w : ℕ → ℝ) (detrend : (ℕ → ℝ) → ℕ → ℝ)
    (Fs : ℝ) (scale_by_freq onesided : Bool) (x y : ℕ → ℝ) (k i : ℕ) : ℂ :=
  (starRingEnd ℂ) (segFFT L NFFT noverlap pad_to w detrend x i k) *
      segFFT L NFFT noverlap pad_to w detrend y i k
    / (winNorm NFFT w : ℂ) * (sfac pad_to onesided k : ℂ) / (fsDiv Fs scale_by_freq : ℂ)

/-- `pii.mean(1)` applied to the first output of `full_spectral_helper` in
`pca_noise`: segment-averaged auto density of `x` at output frequency `k`
(after the two-sided reordering, when selected). -/
def Saa (L NFFT noverlap pad_to : ℕ) (w : ℕ → ℝ) (detrend : (ℕ → ℝ) → ℕ → ℝ)
    (Fs : ℝ) (scale_by_freq onesided : Bool) (x : ℕ → ℝ) (k : ℕ) : ℝ :=
  (∑ i in Finset.range (numSegs L NFFT noverlap),
      Pxx L NFFT noverlap pad_to w detrend Fs scale_by_freq onesided x
        (shiftIdx pad_to onesided k) i)
    / (numSegs L NFFT noverlap : ℝ)

/-- `piq.mean(1)`: segment-averaged cross density at output frequency `k`. -/
def Sab (L NFFT noverlap pad_to : ℕ) (w : ℕ → ℝ) (detrend : (ℕ → ℝ) → ℕ → ℝ)
    (Fs : ℝ) (scale_by_freq onesided : Bool) (x y : ℕ → ℝ) (k : ℕ) : ℂ :=
  (∑ i in Finset.range (numSegs L NFFT noverlap),
      Pxy L NFFT noverlap pad_to w detrend Fs scale_by_freq onesided x y
        (shiftIdx pad_to onesided k) i)
    / (numSegs L NFFT noverlap : ℂ)

end FSH

/-- A concrete minimal demodulator (one tap, unit window, no interpolation,
zero hardware delay), whose response table is small enough to evaluate in full:
`pfb_fft_length = 1`, so the table is the single pair `(-1/4, 1)`. -/
def pfbDemo : Demodulator := ⟨1, 1, fun _ _ => 1, 1, 0⟩

end

/-!  ## Claim theorems  -/

/-- C10: the offset frequency computed inline by `RoachHeterodyne.demodulate_data`,
`(k * nfft - m * ns) / ns`, agrees exactly with
`tone_offset_frequency(k, ns, m, nfft) = nfft * (k / ns) - m` for every integer
tone bin `k`, fft bin `m`, FFT length `nfft` and positive playback length `ns`. -/
theorem claim_C10_offset_agreement (tone_bin fft_bin : ℤ) (nfft tone_num_samples : ℕ)
    (h : 0 < tone_num_samples) :
    heterodyne_foffs tone_bin nfft fft_bin tone_num_samples =
      tone_offset_frequency tone_bin tone_num_samples fft_bin nfft := by
  have hns : (tone_num_samples : ℝ) ≠ 0 := Nat.cast_ne_zero.mpr h.ne'
  unfold heterodyne_foffs tone_offset_frequency
  field_simp
  ring

/-- C10 witness: the agreement at the spec's concrete scenario
`tone_bin = 100`, `playback length = 65536`, `fft_bin = 25`, `nfft = 16384`. -/
theorem claim_C10_witness :
    0 < 65536 ∧
      heterodyne_foffs 100 16384 25 65536 = tone_offset_frequency 100 65536 25 16384 :=
  ⟨by norm_num, claim_C10_offset_agreement 100 25 16384 65536 (by norm_num)⟩

/-- C9: when every per-channel offset frequency is exactly zero, the period
computation fails (the mask removes every entry and `np.max` of an empty array
raises, modelled as `none`) rather than returning a degenerate period value. -/
theorem claim_C9_all_zero_offsets_fail (foffs : List ℚ) (h : ∀ f ∈ foffs, f = 0) :
    get_foffs_period foffs = none := by
  have hf : foffs.filter (fun f => decide (f ≠ 0)) = [] := by
    rw [List.filter_eq_nil_iff]
    intro a ha
    simp [h a ha]
  unfold get_foffs_period
  rw [hf]
  rfl

/-- C9 witness: the failure at the concrete all-zero offset vector `[0, 0]`. -/
theorem claim_C9_witness :
    (∀ f ∈ ([0, 0] : List ℚ), f = 0) ∧ get_foffs_period [0, 0] = none :=
  ⟨by decide, claim_C9_all_zero_offsets_fail [0, 0] (by decide)⟩

/-- C5 counterexample: the code computes the period as the *largest* reciprocal
offset, not the smallest positive one.  For offsets `[1/2, 1/4]` the reciprocal
periods are `[2, 4]`; the smallest positive period (the claim's wording, embodied
in `claimC5_period`) is `2`, but `get_foffs_period` returns `4`. -/
theorem claim_C5_counterexample :
    get_foffs_period [1/2, 1/4] = some 4 ∧
      claimC5_period [1/2, 1/4] = some 2 ∧ (4 : ℤ) ≠ 2 := by
  refine ⟨?_, ?_, by decide⟩
  · unfold get_foffs_period
    norm_num [List.filter_cons, List.filter_nil, listMax, intTrunc]
  · unfold claimC5_period
    norm_num [List.filter_cons, List.filter_nil, List.foldr]

/-- C5 amended: the period is `int(max(1/foffs))` over the nonzero offsets — the
*largest* reciprocal-offset period, truncated toward zero — and the stream path
truncates the buffer to a whole multiple of it.  For offsets `[1/37, 1/37]` the
period is `37` and a 100-sample buffer keeps exactly `74 = 2 × 37` samples;
in general, for a positive period the retained length is a multiple of the
period and never exceeds the buffer length. -/
theorem claim_C5_amended :
    get_foffs_period [1/37, 1/37] = some 37 ∧
      truncated_length 100 37 = 74 ∧
      ∀ T nt : ℕ, 0 < nt → nt ∣ truncated_length T nt ∧ truncated_length T nt ≤ T := by
  refine ⟨?_, by decide, ?_⟩
  · unfold get_foffs_period
    norm_num [List.filter_cons, List.filter_nil, listMax, intTrunc]
  intro T nt _
  unfold truncated_length
  by_cases hmod : T % nt = 0
  · rw [if_neg (by simp [hmod])]
    exact ⟨Nat.dvd_of_mod_eq_zero hmod, le_refl T⟩
  · rw [if_pos hmod]
    refine ⟨Dvd.intro _ rfl, ?_⟩
    calc nt * (T / nt) = T / nt * nt := Nat.mul_comm _ _
      _ ≤ T := Nat.div_mul_le_self T nt

/-- C5 witness: the general truncation clause of the amended claim, discharged at
the concrete buffer length 100 and period 37. -/
theorem claim_C5_witness :
    0 < 37 ∧ (37 ∣ truncated_length 100 37 ∧ truncated_length 100 37 ≤ 100) :=
  ⟨by decide, claim_C5_amended.2.2 100 37 (by decide)⟩

/-- C8: `packet_phase` returns, per channel, exactly
`exp(-2πi · s · foffs · (ns/nfft) / modn)` where
`modn = ns / (nfft·1024/nchan)` replaced by `1` when that quotient is zero and
`s` is the first sequence number shifted right by the bits-per-chunk shift and
reduced modulo `modn`; the factor has unit magnitude.  It depends only on the
first sequence number, so it is constant over the whole buffer. -/
theorem claim_C8_packet_phase (seq_no : ℕ) (foffs : ℝ) (nchan nfft ns : ℕ) :
    (packet_phase seq_no foffs nchan nfft ns =
      Complex.exp (-(2 * (Real.pi : ℂ) * Complex.I) *
        (((seq_no >>> (Nat.log2 (nfft * 1024 / nchan) - 1)) %
            (if ns / (nfft * 1024 / nchan) = 0 then 1 else ns / (nfft * 1024 / nchan)) : ℕ) : ℂ) *
        (foffs : ℂ) * ((ns / nfft : ℕ) : ℂ) /
        ((if ns / (nfft * 1024 / nchan) = 0 then 1 else ns / (nfft * 1024 / nchan) : ℕ) : ℂ))) ∧
    Complex.abs (packet_phase seq_no foffs nchan nfft ns) = 1 := by
  have key : ∀ (sn mn my : ℕ) (f : ℝ),
      (-Complex.I * 2 * (Real.pi : ℂ) * (sn : ℂ) * (f : ℂ) * (my : ℂ) / (mn : ℂ)) =
        ((-(2 * Real.pi * sn * f * my / mn) : ℝ) : ℂ) * Complex.I := by
    intro sn mn my f
    push_cast
    ring
  constructor
  · unfold packet_phase
    ring_nf
  · simp only [packet_phase]
    rw [key]
    rw [Complex.abs_exp]
    simp

/-- C3: `Demodulator.demodulate` equals, per sample `t`, the product of the PFB
correction at `offset = nfft * (tone_bin / playback_length) - fft_bin`, the
rotation `exp(-i (2π·offset·t + initial_phase))` and the raw sample, times the
packet-phase factor exactly when sequence numbers are supplied (factor `1`
otherwise), times the hardware-delay factor
`exp(2πi·delay·tone_bin/playback_length)` exactly when the configured delay is
nonzero (factor `1` otherwise); and the offset the code computes via
`tone_offset_frequency` is that formula. -/
theorem claim_C3_demodulate (d : Demodulator) (data : ℕ → ℂ) (tone_bin : ℤ)
    (tone_num_samples : ℕ) (tone_phase : ℝ) (fft_bin : ℤ) (nchan : ℕ)
    (seq_nos : Option (ℕ → ℕ)) (t : ℕ) :
    Demodulator.demodulate d data tone_bin tone_num_samples tone_phase fft_bin nchan seq_nos t =
      (Demodulator.compute_pfb_response d
          ((d.nfft : ℝ) * ((tone_bin : ℝ) / (tone_num_samples : ℝ)) - (fft_bin : ℝ)) : ℂ) *
        Complex.exp (-Complex.I *
          (2 * (Real.pi : ℂ) *
              (((d.nfft : ℝ) * ((tone_bin : ℝ) / (tone_num_samples : ℝ)) - (fft_bin : ℝ) : ℝ) : ℂ) *
              (t : ℂ) + (tone_phase : ℂ))) *
        data t *
        (match seq_nos with
         | some s => packet_phase (s 0)
             ((d.nfft : ℝ) * ((tone_bin : ℝ) / (tone_num_samples : ℝ)) - (fft_bin : ℝ))
             nchan d.nfft tone_num_samples
         | none => 1) *
        (if d.hardware_delay_samples ≠ 0 then
            Complex.exp (2 * (Real.pi : ℂ) * Complex.I * (d.hardware_delay_samples : ℂ) *
              (tone_bin : ℂ) / (tone_num_samples : ℂ))
          else 1) ∧
    tone_offset_frequency tone_bin tone_num_samples fft_bin d.nfft =
      (d.nfft : ℝ) * ((tone_bin : ℝ) / (tone_num_samples : ℝ)) - (fft_bin : ℝ) := by
  constructor
  · unfold Demodulator.demodulate tone_offset_frequency
    cases seq_nos with
    | none =>
        by_cases h : d.hardware_delay_samples ≠ 0
        · simp only [if_pos h]
          ring
        · simp only [if_neg h]
          ring
    | some s =>
        by_cases h : d.hardware_delay_samples ≠ 0
        · simp only [if_pos h]
        · simp only [if_neg h]
          ring
  · rfl

/-!  ### Shared facts about the 2x2 eigensolver model  -/

/-- `eigh2` returns a genuine orthonormal eigendecomposition of `!![a, b; b, c]`:
the two columns are unit-length, mutually orthogonal eigenvectors for the two
returned eigenvalues. -/
theorem eigh2_spec (a b c : ℝ) :
    a * (eigh2 a b c).2 0 0 + b * (eigh2 a b c).2 1 0 = (eigh2 a b c).1.1 * (eigh2 a b c).2 0 0 ∧
    b * (eigh2 a b c).2 0 0 + c * (eigh2 a b c).2 1 0 = (eigh2 a b c).1.1 * (eigh2 a b c).2 1 0 ∧
    a * (eigh2 a b c).2 0 1 + b * (eigh2 a b c).2 1 1 = (eigh2 a b c).1.2 * (eigh2 a b c).2 0 1 ∧
    b * (eigh2 a b c).2 0 1 + c * (eigh2 a b c).2 1 1 = (eigh2 a b c).1.2 * (eigh2 a b c).2 1 1 ∧
    (eigh2 a b c).2 0 0 ^ 2 + (eigh2 a b c).2 1 0 ^ 2 = 1 ∧
    (eigh2 a b c).2 0 1 ^ 2 + (eigh2 a b c).2 1 1 ^ 2 = 1 ∧
    (eigh2 a b c).2 0 0 * (eigh2 a b c).2 0 1 + (eigh2 a b c).2 1 0 * (eigh2 a b c).2 1 1 = 0 := by
  by_cases hb : b = 0
  · by_cases hac : a ≤ c
    · simp [eigh2, hb, hac]
    · simp [eigh2, hb, hac]
  · have hDnn : (0:ℝ) ≤ (a - c) ^ 2 + 4 * b ^ 2 := by positivity
    have hD2 : Real.sqrt ((a - c) ^ 2 + 4 * b ^ 2) ^ 2 = (a - c) ^ 2 + 4 * b ^ 2 :=
      Real.sq_sqrt hDnn
    set D := Real.sqrt ((a - c) ^ 2 + 4 * b ^ 2) with hD
    set l0 := (a + c - D) / 2 with hl0
    set l1 := (a + c + D) / 2 with hl1
    have hn0nn : (0:ℝ) < b ^ 2 + (l0 - a) ^ 2 := by positivity
    have hn1nn : (0:ℝ) < b ^ 2 + (l1 - a) ^ 2 := by positivity
    have hn0pos : 0 < Real.sqrt (b ^ 2 + (l0 - a) ^ 2) := Real.sqrt_pos.mpr hn0nn
    have hn1pos : 0 < Real.sqrt (b ^ 2 + (l1 - a) ^ 2) := Real.sqrt_pos.mpr hn1nn
    have hn0sq : Real.sqrt (b ^ 2 + (l0 - a) ^ 2) ^ 2 = b ^ 2 + (l0 - a) ^ 2 :=
      Real.sq_sqrt hn0nn.le
    have hn1sq : Real.sqrt (b ^ 2 + (l1 - a) ^ 2) ^ 2 = b ^ 2 + (l1 - a) ^ 2 :=
      Real.sq_sqrt hn1nn.le
    set n0 := Real.sqrt (b ^ 2 + (l0 - a) ^ 2) with hn0
    set n1 := Real.sqrt (b ^ 2 + (l1 - a) ^ 2) with hn1
    have hn0ne : n0 ≠ 0 := ne_of_gt hn0pos
    have hn1ne : n1 ≠ 0 := ne_of_gt hn1pos
    have char0 : l0 ^ 2 - (a + c) * l0 + a * c - b ^ 2 = 0 := by
      rw [hl0]
      linear_combination hD2 / 4
    have char1 : l1 ^ 2 - (a + c) * l1 + a * c - b ^ 2 = 0 := by
      rw [hl1]
      linear_combination hD2 / 4
    have hentry : (eigh2 a b c).2 = !![b / n0, b / n1; (l0 - a) / n0, (l1 - a) / n1] := by
      simp [eigh2, hb, ← hD, ← hl0, ← hl1, ← hn0, ← hn1]
    have hevals : (eigh2 a b c).1 = (l0, l1) := by
      simp [eigh2, hb, ← hD, ← hl0, ← hl1]
    rw [hentry, hevals]
    have e00 : (!![b / n0, b / n1; (l0 - a) / n0, (l1 - a) / n1] : Matrix (Fin 2) (Fin 2) ℝ) 0 0 = b / n0 := by simp
    have e01 : (!![b / n0, b / n1; (l0 - a) / n0, (l1 - a) / n1] : Matrix (Fin 2) (Fin 2) ℝ) 0 1 = b / n1 := by simp
    have e10 : (!![b / n0, b / n1; (l0 - a) / n0, (l1 - a) / n1] : Matrix (Fin 2) (Fin 2) ℝ) 1 0 = (l0 - a) / n0 := by simp
    have e11 : (!![b / n0, b / n1; (l0 - a) / n0, (l1 - a) / n1] : Matrix (Fin 2) (Fin 2) ℝ) 1 1 = (l1 - a) / n1 := by simp
    rw [e00, e01, e10, e11]
    refine ⟨by ring, ?_, by ring, ?_, ?_, ?_, ?_⟩
    · have key : b * b + c * (l0 - a) = l0 * (l0 - a) := by linear_combination -char0
      calc b * (b / n0) + c * ((l0 - a) / n0) = (b * b + c * (l0 - a)) / n0 := by ring
        _ = (l0 * (l0 - a)) / n0 := by rw [key]
        _ = l0 * ((l0 - a) / n0) := by ring
    · have key : b * b + c * (l1 - a) = l1 * (l1 - a) := by linear_combination -char1
      calc b * (b / n1) + c * ((l1 - a) / n1) = (b * b + c * (l1 - a)) / n1 := by ring
        _ = (l1 * (l1 - a)) / n1 := by rw [key]
        _ = l1 * ((l1 - a) / n1) := by ring
    · have : (b / n0) ^ 2 + ((l0 - a) / n0) ^ 2 = (b ^ 2 + (l0 - a) ^ 2) / n0 ^ 2 := by ring
      rw [this, ← hn0sq, div_self (pow_ne_zero 2 hn0ne)]
    · have : (b / n1) ^ 2 + ((l1 - a) / n1) ^ 2 = (b ^ 2 + (l1 - a) ^ 2) / n1 ^ 2 := by ring
      rw [this, ← hn1sq, div_self (pow_ne_zero 2 hn1ne)]
    · have hnum : b * b + (l0 - a) * (l1 - a) = 0 := by
        rw [hl0, hl1]
        linear_combination -hD2 / 4
      calc b / n0 * (b / n1) + (l0 - a) / n0 * ((l1 - a) / n1)
            = (b * b + (l0 - a) * (l1 - a)) / (n0 * n1) := by ring
        _ = 0 := by rw [hnum]; simp

/-- For a positive-semidefinite `!![a, b; b, c]` (diagonal nonnegative and
`b^2 <= a*c`), both eigenvalues returned by `eigh2` are nonnegative. -/
theorem eigh2_nonneg (a b c : ℝ) (ha : 0 ≤ a) (hc : 0 ≤ c) (hb : b ^ 2 ≤ a * c) :
    0 ≤ (eigh2 a b c).1.1 ∧ 0 ≤ (eigh2 a b c).1.2 := by
  by_cases hb0 : b = 0
  · by_cases hac : a ≤ c
    · constructor
      · simpa [eigh2, hb0, hac] using ha
      · simpa [eigh2, hb0, hac] using hc
    · constructor
      · simpa [eigh2, hb0, hac] using hc
      · simpa [eigh2, hb0, hac] using ha
  · have h1 : (a - c) ^ 2 + 4 * b ^ 2 ≤ (a + c) ^ 2 := by nlinarith
    have hDle : Real.sqrt ((a - c) ^ 2 + 4 * b ^ 2) ≤ a + c := by
      calc Real.sqrt ((a - c) ^ 2 + 4 * b ^ 2) ≤ Real.sqrt ((a + c) ^ 2) := Real.sqrt_le_sqrt h1
        _ = a + c := Real.sqrt_sq (by linarith)
    have hDnn : 0 ≤ Real.sqrt ((a - c) ^ 2 + 4 * b ^ 2) := Real.sqrt_nonneg _
    have hl0 : (eigh2 a b c).1.1 = (a + c - Real.sqrt ((a - c) ^ 2 + 4 * b ^ 2)) / 2 := by
      simp [eigh2, hb0]
    have hl1 : (eigh2 a b c).1.2 = (a + c + Real.sqrt ((a - c) ^ 2 + 4 * b ^ 2)) / 2 := by
      simp [eigh2, hb0]
    rw [hl0, hl1]
    constructor <;> linarith

/-- The eigenvector matrix returned by `eigh2` has determinant `±1`
(hence is invertible). -/
theorem eigh2_det_sq (a b c : ℝ) :
    ((eigh2 a b c).2 0 0 * (eigh2 a b c).2 1 1 -
        (eigh2 a b c).2 0 1 * (eigh2 a b c).2 1 0) ^ 2 = 1 := by
  obtain ⟨_, _, _, _, hu0, hu1, hor⟩ := eigh2_spec a b c
  linear_combination ((eigh2 a b c).2 0 1 ^ 2 + (eigh2 a b c).2 1 1 ^ 2) * hu0 + hu1 -
    ((eigh2 a b c).2 0 0 * (eigh2 a b c).2 0 1 +
      (eigh2 a b c).2 1 0 * (eigh2 a b c).2 1 1) * hor

/-- C1 (amended): for every input triple forming per-bin positive-semidefinite
matrices, every eigenvalue recorded by `calculate_pca_noise` is nonnegative —
because the eigensolver returns the exact eigenvalues of the PSD matrix, not
because of any clamping: the code contains no clamp and records no clamping
flag (see the counterexample, where a negative eigenvalue is returned
unchanged). -/
theorem claim_C1_amended (nf : ℕ) (pii pqq : ℕ → ℝ) (piq : ℕ → ℂ)
    (hpsd : ∀ k, k < nf →
      0 ≤ pii k ∧ 0 ≤ pqq k ∧ Complex.normSq (piq k) ≤ pii k * pqq k) :
    ∀ k, k < nf →
      0 ≤ ((calculate_pca_noise nf pii pqq piq).evals k).1 ∧
        0 ≤ ((calculate_pca_noise nf pii pqq piq).evals k).2 := by
  intro k hk
  obtain ⟨ha, hc, hb⟩ := hpsd k hk
  have hre : ((piq k).re) ^ 2 ≤ pii k * pqq k := by
    have : ((piq k).re) ^ 2 ≤ Complex.normSq (piq k) := by
      rw [Complex.normSq_apply]
      nlinarith [sq_nonneg ((piq k).im)]
    linarith
  have h := eigh2_nonneg (pii k) ((piq k).re) (pqq k) ha hc hre
  exact h

/-- C1 witness: the amended claim at the concrete PSD triple
`S_ii = S_qq = 1`, `S_iq = 0` with one bin. -/
theorem claim_C1_witness :
    (∀ k, k < 1 →
      0 ≤ (fun _ : ℕ => (1:ℝ)) k ∧ 0 ≤ (fun _ : ℕ => (1:ℝ)) k ∧
        Complex.normSq ((fun _ : ℕ => (0:ℂ)) k) ≤ (fun _ : ℕ => (1:ℝ)) k * (fun _ : ℕ => (1:ℝ)) k) ∧
    (∀ k, k < 1 →
      0 ≤ ((calculate_pca_noise 1 (fun _ => 1) (fun _ => 1) (fun _ => 0)).evals k).1 ∧
        0 ≤ ((calculate_pca_noise 1 (fun _ => 1) (fun _ => 1) (fun _ => 0)).evals k).2) :=
  ⟨fun k _ => ⟨by norm_num, by norm_num, by simp⟩,
   claim_C1_amended 1 (fun _ => 1) (fun _ => 1) (fun _ => 0)
     (fun k _ => ⟨by norm_num, by norm_num, by simp⟩)⟩

/-- C1 counterexample: `calculate_pca_noise` performs no clamping and records no
clamping flag.  At the input triple `S_ii = S_qq = 0`, `S_iq = 1` (the matrix a
numerically noisy estimator can produce), the recorded first eigenvalue is `-1`:
a negative eigenvalue is propagated unchanged in the returned `evals` array,
which refutes "clamped to zero rather than propagated, and the result records
that clamping occurred". -/
theorem claim_C1_counterexample :
    ((calculate_pca_noise 1 (fun _ => 0) (fun _ => 0) (fun _ => 1)).evals 0).1 = -1 ∧
      ((calculate_pca_noise 1 (fun _ => 0) (fun _ => 0) (fun _ => 1)).evals 0).1 < 0 := by
  have hsq : Real.sqrt ((0 - 0 : ℝ) ^ 2 + 4 * 1 ^ 2) = 2 := by
    rw [show ((0 - 0 : ℝ) ^ 2 + 4 * 1 ^ 2) = 2 ^ 2 by norm_num]
    exact Real.sqrt_sq (by norm_num)
  have h : ((calculate_pca_noise 1 (fun _ => 0) (fun _ => 0) (fun _ => 1)).evals 0).1
      = ((0 : ℝ) + 0 - Real.sqrt ((0 - 0 : ℝ) ^ 2 + 4 * 1 ^ 2)) / 2 := by
    simp [calculate_pca_noise, eigh2]
  rw [h, hsq]
  norm_num

/-- C7 (amended): per frequency bin, the eigenvalue pair and eigenvector matrix
recorded by `calculate_pca_noise` are an eigendecomposition — real eigenvalues
(by construction) and orthonormal eigenvectors — of the Hermitian matrix built
from the *real part* of the supplied cross density,
`!![S_ii, Re S_iq; Re S_iq, S_qq]` (the code builds its eigenproblem matrix with
`np.real(piq[k])`, not the full complex `S_iq`; see the counterexample). -/
theorem claim_C7_amended (nf : ℕ) (pii pqq : ℕ → ℝ) (piq : ℕ → ℂ) (k : ℕ) :
    (!![pii k, (piq k).re; (piq k).re, pqq k]).mulVec
        (fun i => (calculate_pca_noise nf pii pqq piq).evects k i 0) =
      ((calculate_pca_noise nf pii pqq piq).evals k).1 •
        (fun i => (calculate_pca_noise nf pii pqq piq).evects k i 0) ∧
    (!![pii k, (piq k).re; (piq k).re, pqq k]).mulVec
        (fun i => (calculate_pca_noise nf pii pqq piq).evects k i 1) =
      ((calculate_pca_noise nf pii pqq piq).evals k).2 •
        (fun i => (calculate_pca_noise nf pii pqq piq).evects k i 1) ∧
    ((calculate_pca_noise nf pii pqq piq).evects k 0 0) ^ 2 +
        ((calculate_pca_noise nf pii pqq piq).evects k 1 0) ^ 2 = 1 ∧
    ((calculate_pca_noise nf pii pqq piq).evects k 0 1) ^ 2 +
        ((calculate_pca_noise nf pii pqq piq).evects k 1 1) ^ 2 = 1 ∧
    (calculate_pca_noise nf pii pqq piq).evects k 0 0 *
          (calculate_pca_noise nf pii pqq piq).evects k 0 1 +
        (calculate_pca_noise nf pii pqq piq).evects k 1 0 *
          (calculate_pca_noise nf pii pqq piq).evects k 1 1 = 0 := by
  have hv : (calculate_pca_noise nf pii pqq piq).evects k
      = (eigh2 (pii k) ((piq k).re) (pqq k)).2 := rfl
  have he : (calculate_pca_noise nf pii pqq piq).evals k
      = (eigh2 (pii k) ((piq k).re) (pqq k)).1 := rfl
  obtain ⟨h1, h2, h3, h4, h5, h6, h7⟩ := eigh2_spec (pii k) ((piq k).re) (pqq k)
  rw [hv, he]
  refine ⟨?_, ?_, h5, h6, h7⟩
  · funext i
    fin_cases i
    · simpa [Matrix.mulVec, Matrix.dotProduct, Fin.sum_univ_two, mul_comm] using h1
    · simpa [Matrix.mulVec, Matrix.dotProduct, Fin.sum_univ_two, mul_comm] using h2
  · funext i
    fin_cases i
    · simpa [Matrix.mulVec, Matrix.dotProduct, Fin.sum_univ_two, mul_comm] using h3
    · simpa [Matrix.mulVec, Matrix.dotProduct, Fin.sum_univ_two, mul_comm] using h4

/-- C7 counterexample: with the purely imaginary cross density `S_iq = i` and
`S_ii = S_qq = 1`, the recorded pair (first eigenvalue `1`, first eigenvector
`(1, 0)`) is *not* an eigenpair of the full Hermitian matrix
`M = !![1, i; -i, 1]` formed from the supplied complex `S_iq` (its eigenvalues
are `0` and `2`): `M ·ᵥ (1,0) = (1, -i) ≠ 1 • (1,0)`.  The claim as stated is
therefore false. -/
theorem claim_C7_counterexample :
    ¬ ((pcaMatrixFull (fun _ => 1) (fun _ => 1) (fun _ => Complex.I) 0).mulVec
        (fun i => (((calculate_pca_noise 1 (fun _ => 1) (fun _ => 1)
            (fun _ => Complex.I)).evects 0) i 0 : ℂ)) =
      (((calculate_pca_noise 1 (fun _ => 1) (fun _ => 1) (fun _ => Complex.I)).evals 0).1 : ℂ) •
        (fun i => (((calculate_pca_noise 1 (fun _ => 1) (fun _ => 1)
            (fun _ => Complex.I)).evects 0) i 0 : ℂ))) := by
  intro h
  have hv : (calculate_pca_noise 1 (fun _ => 1) (fun _ => 1) (fun _ => Complex.I)).evects 0
      = !![1, 0; 0, 1] := by
    simp [calculate_pca_noise, eigh2, Complex.I_re]
  have h1 := congrFun h 1
  rw [hv] at h1
  simp [pcaMatrixFull, Matrix.mulVec, Matrix.dotProduct, Fin.sum_univ_two,
    calculate_pca_noise, eigh2, Complex.I_re, Complex.ext_iff] at h1

/-- Inversion of a real matrix commutes with the entrywise cast to `ℂ`. -/
theorem inv2_matC (v : Matrix (Fin 2) (Fin 2) ℝ) : inv2 (matC v) = matC (inv2 v) := by
  funext i j
  fin_cases i <;> fin_cases j <;> simp [inv2, matC]

/-- `inv2` is a genuine left inverse whenever the determinant is nonzero. -/
theorem inv2_mul_cancel {α : Type} [Field α] (v : Matrix (Fin 2) (Fin 2) α)
    (h : v 0 0 * v 1 1 - v 0 1 * v 1 0 ≠ 0) : inv2 v * v = 1 := by
  funext i j
  fin_cases i <;> fin_cases j <;>
    · simp [inv2, Matrix.mul_apply, Fin.sum_univ_two, Matrix.one_apply]
      field_simp
      ring

/-- For a real matrix `v` with orthogonal columns and a Hermitian middle factor,
the diagonal entries of `v⁻¹ · M · v` are real. -/
theorem rotated_diag_im_zero (v : Matrix (Fin 2) (Fin 2) ℝ) (z : ℂ) (al ga : ℝ)
    (horth : v 0 0 * v 0 1 + v 1 0 * v 1 1 = 0) :
    ((inv2 (matC v) * !![(al:ℂ), z; (starRingEnd ℂ) z, (ga:ℂ)] * matC v) 0 0).im = 0 ∧
    ((inv2 (matC v) * !![(al:ℂ), z; (starRingEnd ℂ) z, (ga:ℂ)] * matC v) 1 1).im = 0 := by
  rw [inv2_matC]
  have h00 : (matC (inv2 v) * !![(al:ℂ), z; (starRingEnd ℂ) z, (ga:ℂ)] * matC v) 0 0 =
      ((inv2 v 0 0 : ℂ) * al + (inv2 v 0 1 : ℂ) * (starRingEnd ℂ) z) * (v 0 0 : ℂ) +
      ((inv2 v 0 0 : ℂ) * z + (inv2 v 0 1 : ℂ) * ga) * (v 1 0 : ℂ) := by
    simp [Matrix.mul_apply, Fin.sum_univ_two, matC]
  have h11 : (matC (inv2 v) * !![(al:ℂ), z; (starRingEnd ℂ) z, (ga:ℂ)] * matC v) 1 1 =
      ((inv2 v 1 0 : ℂ) * al + (inv2 v 1 1 : ℂ) * (starRingEnd ℂ) z) * (v 0 1 : ℂ) +
      ((inv2 v 1 0 : ℂ) * z + (inv2 v 1 1 : ℂ) * ga) * (v 1 1 : ℂ) := by
    simp [Matrix.mul_apply, Fin.sum_univ_two, matC]
  have hi00 : inv2 v 0 0 = 1 / (v 0 0 * v 1 1 - v 0 1 * v 1 0) * v 1 1 := by simp [inv2]
  have hi01 : inv2 v 0 1 = 1 / (v 0 0 * v 1 1 - v 0 1 * v 1 0) * (-(v 0 1)) := by simp [inv2]
  have hi10 : inv2 v 1 0 = 1 / (v 0 0 * v 1 1 - v 0 1 * v 1 0) * (-(v 1 0)) := by simp [inv2]
  have hi11 : inv2 v 1 1 = 1 / (v 0 0 * v 1 1 - v 0 1 * v 1 0) * v 0 0 := by simp [inv2]
  constructor
  · rw [h00, hi00, hi01]
    simp only [Complex.add_im, Complex.mul_im, Complex.mul_re, Complex.ofReal_re,
      Complex.ofReal_im, Complex.conj_re, Complex.conj_im]
    ring_nf
    linear_combination (z.im * (v 0 0 * v 1 1 - v 0 1 * v 1 0)⁻¹) * horth
  · rw [h11, hi10, hi11]
    simp only [Complex.add_im, Complex.mul_im, Complex.mul_re, Complex.ofReal_re,
      Complex.ofReal_im, Complex.conj_re, Complex.conj_im]
    ring_nf
    linear_combination (-(z.im) * (v 0 0 * v 1 1 - v 0 1 * v 1 0)⁻¹) * horth

/-- C6: for every frequency bin `k`, the rotated power pair stored by
`calculate_pca_noise` equals the diagonal of `V0⁻¹ · M_k · V0`, where `M_k` is
the bin's full complex 2×2 matrix (built from the supplied `S_iq`, not its real
part) and `V0` is the fixed eigenvector matrix of bin 0 — the matrix used for
every bin, not each bin's own eigenvectors.  The diagonal entries are genuinely
real (so the float-array store loses nothing), and `inv2 V0` is a true inverse
of `V0`. -/
theorem claim_C6_rotated_power (nf : ℕ) (pii pqq : ℕ → ℝ) (piq : ℕ → ℂ) (k : ℕ) :
    (inv2 (matC ((calculate_pca_noise nf pii pqq piq).evects 0)) *
        pcaMatrixFull pii pqq piq k *
        matC ((calculate_pca_noise nf pii pqq piq).evects 0)) 0 0
      = (((calculate_pca_noise nf pii pqq piq).S k).1 : ℂ) ∧
    (inv2 (matC ((calculate_pca_noise nf pii pqq piq).evects 0)) *
        pcaMatrixFull pii pqq piq k *
        matC ((calculate_pca_noise nf pii pqq piq).evects 0)) 1 1
      = (((calculate_pca_noise nf pii pqq piq).S k).2 : ℂ) ∧
    inv2 (matC ((calculate_pca_noise nf pii pqq piq).evects 0)) *
        matC ((calculate_pca_noise nf pii pqq piq).evects 0) = 1 := by
  obtain ⟨_, _, _, _, _, _, horth⟩ := eigh2_spec (pii 0) ((piq 0).re) (pqq 0)
  have hv : (calculate_pca_noise nf pii pqq piq).evects 0
      = (eigh2 (pii 0) ((piq 0).re) (pqq 0)).2 := rfl
  have hM : pcaMatrixFull pii pqq piq k =
      !![((pii k : ℝ) : ℂ), piq k; (starRingEnd ℂ) (piq k), ((pqq k : ℝ) : ℂ)] := rfl
  obtain ⟨him0, him1⟩ := rotated_diag_im_zero ((eigh2 (pii 0) ((piq 0).re) (pqq 0)).2)
    (piq k) (pii k) (pqq k) horth
  have hS1 : (((calculate_pca_noise nf pii pqq piq).S k).1 : ℂ)
      = (((inv2 (matC ((calculate_pca_noise nf pii pqq piq).evects 0)) *
          pcaMatrixFull pii pqq piq k *
          matC ((calculate_pca_noise nf pii pqq piq).evects 0)) 0 0).re : ℂ) := rfl
  have hS2 : (((calculate_pca_noise nf pii pqq piq).S k).2 : ℂ)
      = (((inv2 (matC ((calculate_pca_noise nf pii pqq piq).evects 0)) *
          pcaMatrixFull pii pqq piq k *
          matC ((calculate_pca_noise nf pii pqq piq).evects 0)) 1 1).re : ℂ) := rfl
  refine ⟨?_, ?_, ?_⟩
  · rw [hS1]
    apply Complex.ext
    · simp
    · rw [Complex.ofReal_im]
      rw [hv, hM]
      exact him0
  · rw [hS2]
    apply Complex.ext
    · simp
    · rw [Complex.ofReal_im]
      rw [hv, hM]
      exact him1
  · have hdet2 := eigh2_det_sq (pii 0) ((piq 0).re) (pqq 0)
    have hdetne : (eigh2 (pii 0) ((piq 0).re) (pqq 0)).2 0 0 *
          (eigh2 (pii 0) ((piq 0).re) (pqq 0)).2 1 1 -
          (eigh2 (pii 0) ((piq 0).re) (pqq 0)).2 0 1 *
          (eigh2 (pii 0) ((piq 0).re) (pqq 0)).2 1 0 ≠ 0 := by
      intro h
      rw [h] at hdet2
      norm_num at hdet2
    rw [hv]
    apply inv2_mul_cancel
    have : matC ((eigh2 (pii 0) ((piq 0).re) (pqq 0)).2) 0 0 *
          matC ((eigh2 (pii 0) ((piq 0).re) (pqq 0)).2) 1 1 -
          matC ((eigh2 (pii 0) ((piq 0).re) (pqq 0)).2) 0 1 *
          matC ((eigh2 (pii 0) ((piq 0).re) (pqq 0)).2) 1 0
        = (((eigh2 (pii 0) ((piq 0).re) (pqq 0)).2 0 0 *
            (eigh2 (pii 0) ((piq 0).re) (pqq 0)).2 1 1 -
            (eigh2 (pii 0) ((piq 0).re) (pqq 0)).2 0 1 *
            (eigh2 (pii 0) ((piq 0).re) (pqq 0)).2 1 0 : ℝ) : ℂ) := by
      simp [matC]
    rw [this]
    exact Complex.ofReal_ne_zero.mpr hdetne

/-- Cauchy-Schwarz for finite sums of complex products, in the squared form used
by the segment-averaged spectral densities. -/
theorem cs_complex (n : ℕ) (u v : ℕ → ℂ) :
    Complex.normSq (∑ i in Finset.range n, (starRingEnd ℂ) (u i) * v i) ≤
      (∑ i in Finset.range n, Complex.normSq (u i)) *
        (∑ i in Finset.range n, Complex.normSq (v i)) := by
  have h1 : Complex.abs (∑ i in Finset.range n, (starRingEnd ℂ) (u i) * v i) ≤
      ∑ i in Finset.range n, Complex.abs (u i) * Complex.abs (v i) := by
    refine le_trans (Complex.abs.sum_le _ _) (le_of_eq ?_)
    refine Finset.sum_congr rfl ?_
    intro i _
    rw [map_mul, Complex.abs_conj]
  have h2 : (∑ i in Finset.range n, Complex.abs (u i) * Complex.abs (v i)) ^ 2 ≤
      (∑ i in Finset.range n, Complex.abs (u i) ^ 2) *
        (∑ i in Finset.range n, Complex.abs (v i) ^ 2) :=
    Finset.sum_mul_sq_le_sq_mul_sq _ _ _
  have h3 : Complex.abs (∑ i in Finset.range n, (starRingEnd ℂ) (u i) * v i) ^ 2 ≤
      (∑ i in Finset.range n, Complex.abs (u i) * Complex.abs (v i)) ^ 2 := by
    apply pow_le_pow_left (Complex.abs.nonneg _) h1
  calc Complex.normSq (∑ i in Finset.range n, (starRingEnd ℂ) (u i) * v i)
      = Complex.abs (∑ i in Finset.range n, (starRingEnd ℂ) (u i) * v i) ^ 2 := by
        rw [Complex.normSq_eq_abs]
    _ ≤ (∑ i in Finset.range n, Complex.abs (u i) * Complex.abs (v i)) ^ 2 := h3
    _ ≤ (∑ i in Finset.range n, Complex.abs (u i) ^ 2) *
          (∑ i in Finset.range n, Complex.abs (v i) ^ 2) := h2
    _ = (∑ i in Finset.range n, Complex.normSq (u i)) *
          (∑ i in Finset.range n, Complex.normSq (v i)) := by
        congr 1 <;> exact Finset.sum_congr rfl (fun i _ => (Complex.normSq_eq_abs _).symm)

/-- The one-sided interior scaling factor is nonnegative. -/
theorem sfac_nonneg (pad_to : ℕ) (onesided : Bool) (k : ℕ) :
    0 ≤ FSH.sfac pad_to onesided k := by
  unfold FSH.sfac
  split_ifs <;> norm_num

/-- C2: for every pair of equal-length real signals and every configuration with
`0 ≤ Fs` and `noverlap < NFFT`, the segment-averaged auto densities produced by
`full_spectral_helper` (as consumed by `pca_noise`) are real (they are `ℝ`-valued
by construction, matching the float storage) and nonnegative at every output
frequency, and the Cauchy-Schwarz inequality
`|S_ab(k)|² ≤ S_aa(k) · S_bb(k)` holds at every output frequency. -/
theorem claim_C2_spectral (L NFFT noverlap pad_to : ℕ) (x y w : ℕ → ℝ)
    (detrend : (ℕ → ℝ) → ℕ → ℝ) (Fs : ℝ) (scale_by_freq onesided : Bool)
    (hFs : 0 ≤ Fs) (hov : noverlap < NFFT) :
    ∀ k,
      0 ≤ FSH.Saa L NFFT noverlap pad_to w detrend Fs scale_by_freq onesided x k ∧
      0 ≤ FSH.Saa L NFFT noverlap pad_to w detrend Fs scale_by_freq onesided y k ∧
      Complex.normSq (FSH.Sab L NFFT noverlap pad_to w detrend Fs scale_by_freq onesided x y k) ≤
        FSH.Saa L NFFT noverlap pad_to w detrend Fs scale_by_freq onesided x k *
          FSH.Saa L NFFT noverlap pad_to w detrend Fs scale_by_freq onesided y k := by
  intro k
  set k2 := FSH.shiftIdx pad_to onesided k with hk2
  set n := FSH.numSegs L NFFT noverlap with hn
  set W := FSH.winNorm NFFT w with hW
  set F := FSH.sfac pad_to onesided k2 with hF
  set G := FSH.fsDiv Fs scale_by_freq with hG
  set u := fun i => FSH.segFFT L NFFT noverlap pad_to w detrend x i k2 with hu
  set v := fun i => FSH.segFFT L NFFT noverlap pad_to w detrend y i k2 with hv
  set c := F / (W * G) with hc
  have hFnn : 0 ≤ F := sfac_nonneg pad_to onesided k2
  have hWnn : 0 ≤ W := by
    rw [hW]
    unfold FSH.winNorm
    exact Finset.sum_nonneg fun j _ => by positivity
  have hGnn : 0 ≤ G := by
    rw [hG]
    unfold FSH.fsDiv
    split_ifs
    · exact hFs
    · norm_num
  have hcnn : 0 ≤ c := div_nonneg hFnn (mul_nonneg hWnn hGnn)
  have hPxx : ∀ (s : ℕ → ℝ) (i : ℕ),
      FSH.Pxx L NFFT noverlap pad_to w detrend Fs scale_by_freq onesided s k2 i =
        Complex.normSq (FSH.segFFT L NFFT noverlap pad_to w detrend s i k2) * c := by
    intro s i
    unfold FSH.Pxx
    rw [hc, ← hW, ← hF, ← hG]
    have hre : ((starRingEnd ℂ) (FSH.segFFT L NFFT noverlap pad_to w detrend s i k2) *
        FSH.segFFT L NFFT noverlap pad_to w detrend s i k2) =
        ((Complex.normSq (FSH.segFFT L NFFT noverlap pad_to w detrend s i k2) : ℝ) : ℂ) := by
      rw [mul_comm, Complex.mul_conj]
    rw [hre, Complex.ofReal_re]
    ring
  have hPxy : ∀ i,
      FSH.Pxy L NFFT noverlap pad_to w detrend Fs scale_by_freq onesided x y k2 i =
        (starRingEnd ℂ) (u i) * v i * ((c : ℝ) : ℂ) := by
    intro i
    unfold FSH.Pxy
    rw [hc, ← hW, ← hF, ← hG]
    push_cast
    ring
  have hSaa : ∀ s : ℕ → ℝ,
      FSH.Saa L NFFT noverlap pad_to w detrend Fs scale_by_freq onesided s k =
        (∑ i in Finset.range n,
            Complex.normSq (FSH.segFFT L NFFT noverlap pad_to w detrend s i k2)) * c / n := by
    intro s
    unfold FSH.Saa
    rw [← hk2, ← hn]
    rw [Finset.sum_congr rfl fun i _ => hPxx s i, ← Finset.sum_mul]
  have hSab :
      FSH.Sab L NFFT noverlap pad_to w detrend Fs scale_by_freq onesided x y k =
        (∑ i in Finset.range n, (starRingEnd ℂ) (u i) * v i) * ((c : ℝ) : ℂ) / ((n : ℝ) : ℂ) := by
    unfold FSH.Sab
    rw [← hk2, ← hn]
    rw [Finset.sum_congr rfl fun i _ => hPxy i, ← Finset.sum_mul]
    norm_num
  have hsum_nn : ∀ s : ℕ → ℝ, 0 ≤ ∑ i in Finset.range n,
      Complex.normSq (FSH.segFFT L NFFT noverlap pad_to w detrend s i k2) :=
    fun s => Finset.sum_nonneg fun i _ => Complex.normSq_nonneg _
  refine ⟨?_, ?_, ?_⟩
  · rw [hSaa x]
    have := hsum_nn x
    positivity
  · rw [hSaa y]
    have := hsum_nn y
    positivity
  · rw [hSab, hSaa x, hSaa y]
    rw [map_div₀, map_mul]
    rw [Complex.normSq_ofReal, Complex.normSq_ofReal]
    have base := cs_complex n u v
    have hfac : 0 ≤ c * c / ((n : ℝ) * n) := by positivity
    calc Complex.normSq (∑ i in Finset.range n, (starRingEnd ℂ) (u i) * v i) * (c * c) /
            ((n : ℝ) * n)
        = Complex.normSq (∑ i in Finset.range n, (starRingEnd ℂ) (u i) * v i) *
            (c * c / ((n : ℝ) * n)) := by ring
      _ ≤ ((∑ i in Finset.range n, Complex.normSq (u i)) *
            (∑ i in Finset.range n, Complex.normSq (v i))) * (c * c / ((n : ℝ) * n)) :=
          mul_le_mul_of_nonneg_right base hfac
      _ = (∑ i in Finset.range n, Complex.normSq (u i)) * c / n *
            ((∑ i in Finset.range n, Complex.normSq (v i)) * c / n) := by ring

/-- C2 witness: the claim at a concrete configuration — signals of length 8,
`NFFT = 4`, `noverlap = 2`, `pad_to = 4`, unit window, identity detrend,
`Fs = 2`, one-sided, scaled by frequency. -/
theorem claim_C2_witness :
    (0 : ℝ) ≤ 2 ∧ (2 : ℕ) < 4 ∧
    (∀ k,
      0 ≤ FSH.Saa 8 4 2 4 (fun _ => 1) (fun f => f) 2 true true (fun _ => 1) k ∧
      0 ≤ FSH.Saa 8 4 2 4 (fun _ => 1) (fun f => f) 2 true true (fun _ => 1) k ∧
      Complex.normSq (FSH.Sab 8 4 2 4 (fun _ => 1) (fun f => f) 2 true true
          (fun _ => 1) (fun _ => 1) k) ≤
        FSH.Saa 8 4 2 4 (fun _ => 1) (fun f => f) 2 true true (fun _ => 1) k *
          FSH.Saa 8 4 2 4 (fun _ => 1) (fun f => f) 2 true true (fun _ => 1) k) :=
  ⟨by norm_num, by norm_num,
   claim_C2_spectral 8 4 2 4 (fun _ => 1) (fun _ => 1) (fun _ => 1) (fun f => f) 2 true true
     (by norm_num) (by norm_num)⟩

/-- `np.interp` right clamp: past every tabulated abscissa, the walk returns the
last ordinate. -/
theorem interpPts_above (x : ℝ) :
    ∀ (l : List (ℝ × ℝ)) (p0 : ℝ × ℝ), (∀ q ∈ l, q.1 < x) →
      interpPts x p0 l = (l.getLastD p0).2 := by
  intro l
  induction l with
  | nil => intro p0 _; rfl
  | cons p1 rest ih =>
      intro p0 hall
      have hp1 : p1.1 < x := hall p1 (List.mem_cons_self _ _)
      rw [interpPts, if_neg (not_lt.mpr hp1.le), List.getLastD_cons]
      exact ih p1 fun q hq => hall q (List.mem_cons_of_mem _ hq)

/-- C4 (amended): `compute_pfb_response` never fails.  For an offset beyond the
tabulated span it returns the reciprocal of the *endpoint* response (`np.interp`
clamps: reciprocal of the last tabulated response above the span, of the first
below it), and in general it returns the reciprocal of the linearly interpolated
normalized response. -/
theorem claim_C4_amended (d : Demodulator) (x : ℝ) :
    ((∀ p ∈ Demodulator.pfb_table d, p.1 < x) →
      Demodulator.compute_pfb_response d x =
        1 / ((Demodulator.pfb_table d).getLastD (0, 0)).2) ∧
    (∀ p0 rest, Demodulator.pfb_table d = p0 :: rest → x ≤ p0.1 →
      Demodulator.compute_pfb_response d x = 1 / p0.2) ∧
    Demodulator.compute_pfb_response d x = 1 / interp x (Demodulator.pfb_table d) := by
  refine ⟨?_, ?_, rfl⟩
  · intro hall
    unfold Demodulator.compute_pfb_response
    cases htab : Demodulator.pfb_table d with
    | nil => rw [interp]; simp [List.getLastD]
    | cons p0 rest =>
        rw [htab] at hall
        have hp0 : p0.1 < x := hall p0 (List.mem_cons_self _ _)
        rw [interp, if_neg (not_le.mpr hp0)]
        rw [interpPts_above x rest p0 fun q hq => hall q (List.mem_cons_of_mem _ hq)]
        rw [List.getLastD_cons]
  · intro p0 rest htab hx
    unfold Demodulator.compute_pfb_response
    rw [htab, interp, if_pos hx]

/-- The single window sample of `pfbDemo`: `1 · sinc(-1/2) = 2/π`. -/
theorem pfbDemo_window : Demodulator.compute_pfb_window pfbDemo 0 = 2 / Real.pi := by
  unfold Demodulator.compute_pfb_window pfbDemo sinc
  norm_num
  rw [show Real.pi * (1 / 2 : ℝ) = Real.pi / 2 by ring, Real.sin_pi_div_two]
  have hpi := Real.pi_ne_zero
  field_simp

/-- The length-1 FFT of the `pfbDemo` window is the constant `2/π`. -/
theorem pfbDemo_fft (k : ℕ) : Demodulator.pfb_window_fft pfbDemo k = ((2 / Real.pi : ℝ) : ℂ) := by
  unfold Demodulator.pfb_window_fft
  rw [show pfbDemo.nfft * pfbDemo.num_taps = 1 from rfl]
  rw [Finset.sum_range_one]
  rw [pfbDemo_window]
  norm_num

/-- The raw response of `pfbDemo` is `2/π` at every index. -/
theorem pfbDemo_raw (i : ℕ) : Demodulator.pfb_response_raw pfbDemo i = 2 / Real.pi := by
  unfold Demodulator.pfb_response_raw
  rw [pfbDemo_fft]
  rw [Complex.abs_ofReal]
  exact abs_of_pos (by positivity)

/-- The response maximum of `pfbDemo` is `2/π`. -/
theorem pfbDemo_max : Demodulator.pfb_response_max pfbDemo = 2 / Real.pi := by
  unfold Demodulator.pfb_response_max
  rw [show Demodulator.pfb_fft_length pfbDemo = 1 from rfl]
  rw [show List.range 1 = [0] from rfl]
  rw [List.map_cons, List.map_nil, List.foldr_cons, List.foldr_nil]
  rw [pfbDemo_raw]
  exact max_eq_left (by positivity)

/-- The full response table of `pfbDemo`: one point, frequency `-1/4`,
normalized response `1`. -/
theorem pfbDemo_table : Demodulator.pfb_table pfbDemo = [(-(1 / 4 : ℝ), 1)] := by
  unfold Demodulator.pfb_table
  rw [show Demodulator.pfb_fft_length pfbDemo = 1 from rfl]
  rw [show List.range 1 = [0] from rfl]
  rw [List.map_cons, List.map_nil]
  have h1 : Demodulator.pfb_norm_freq pfbDemo 0 = -(1 / 4 : ℝ) := by
    unfold Demodulator.pfb_norm_freq
    rw [show Demodulator.pfb_fft_length pfbDemo = 1 from rfl]
    rw [show pfbDemo.interpolation_factor = 1 from rfl]
    norm_num
  have h2 : Demodulator.pfb_response pfbDemo 0 = 1 := by
    unfold Demodulator.pfb_response
    rw [pfbDemo_raw, pfbDemo_max]
    exact div_self (by positivity)
  rw [h1, h2]

/-- C4 counterexample: the tabulated span of `pfbDemo` is the single frequency
`-1/4`, so the offset `100` lies strictly outside it; yet
`compute_pfb_response pfbDemo 100` returns the value `1` (the clamped endpoint
reciprocal) instead of failing with an OutOfRange error — `np.interp` clamps and
never raises, so the claim as stated is false. -/
theorem claim_C4_counterexample :
    Demodulator.pfb_table pfbDemo = [(-(1 / 4 : ℝ), 1)] ∧
      (-(1 / 4 : ℝ)) < 100 ∧
      Demodulator.compute_pfb_response pfbDemo 100 = 1 := by
  refine ⟨pfbDemo_table, by norm_num, ?_⟩
  unfold Demodulator.compute_pfb_response
  rw [pfbDemo_table]
  rw [interp, if_neg (by norm_num), interpPts]
  norm_num

/-- C4 witness: the above-span clause of the amended claim, discharged at the
concrete demodulator `pfbDemo` and offset `100`. -/
theorem claim_C4_witness :
    (∀ p ∈ Demodulator.pfb_table pfbDemo, p.1 < 100) ∧
      Demodulator.compute_pfb_response pfbDemo 100 =
        1 / ((Demodulator.pfb_table pfbDemo).getLastD (0, 0)).2 :=
  ⟨fun p hp => by
      rw [pfbDemo_table] at hp
      rcases List.mem_singleton.mp hp with rfl
      norm_num,
   (claim_C4_amended pfbDemo 100).1 (fun p hp => by
      rw [pfbDemo_table] at hp
      rcases List.mem_singleton.mp hp with rfl
      norm_num)⟩
